import Mathlib

/-!
Verification of the parting (fractal) detection state machine of
`tanglism-morph/src/parting.rs`.

Prices are `BigDecimal` in the source (exact decimal arithmetic, only
compared and cloned); we embed them as `ℚ`.  Timestamps are
`NaiveDateTime`, only compared for equality and carried around; we embed
them as `Nat`.
-/

/-- A raw candle.  Modelled from the spec, §3 (struct `K` of
`crate::shape` is not in the analyzed excerpt): `ts` (timestamp),
`high`, `low`, exactly the fields `parting.rs` reads. -/
structure K where
  ts : Nat
  high : ℚ
  low : ℚ
deriving DecidableEq, Repr

/-- A merged candle.  Modelled from the spec, §3 (struct `CK` of
`crate::shape` is not in the analyzed excerpt): `start_ts`, `end_ts`,
`extremum_ts`, `high`, `low` and the merge count `n`, exactly the fields
`parting.rs` reads and writes. -/
structure CK where
  start_ts : Nat
  end_ts : Nat
  extremum_ts : Nat
  high : ℚ
  low : ℚ
  n : Nat
deriving DecidableEq, Repr

/-- A detected parting (fractal).  Modelled from the spec, §3 (struct
`Parting` of `crate::shape` is not in the analyzed excerpt): the span
`start_ts`/`end_ts`, the extremum timestamp and price, the candle count
`n`, and the polarity flag `top`. -/
structure Parting where
  start_ts : Nat
  end_ts : Nat
  extremum_ts : Nat
  extremum_price : ℚ
  n : Nat
  top : Bool
deriving DecidableEq, Repr

/-- The shaper state: `body` (emitted partings), the three window slots
`first_k`, `second_k`, `third_k`, and the direction flag `upward`.
The Rust struct also carries the input slice and a (dead) config; the
input is passed to `run` explicitly here. -/
structure PartingShaper where
  body : List Parting
  first_k : Option CK
  second_k : Option CK
  third_k : Option CK
  upward : Bool
deriving DecidableEq, Repr

namespace PartingShaper

/-- `PartingShaper::new`: empty body, empty window, `upward = true`. -/
def new : PartingShaper :=
  { body := [], first_k := none, second_k := none, third_k := none, upward := true }

/-- `PartingShaper::k_to_ck`: normalize a raw candle into a merged candle. -/
def k_to_ck (k : K) : CK :=
  { start_ts := k.ts, end_ts := k.ts, extremum_ts := k.ts,
    high := k.high, low := k.low, n := 1 }

/-- `PartingShaper::inclusive_neighbor_k`: decide the inclusive relationship
between merged candle `k1` and raw candle `k2` under direction `upward`,
returning the merged candle when one range contains the other. -/
def inclusive_neighbor_k (k1 : CK) (k2 : K) (upward : Bool) : Option CK :=
  if k1.high ≥ k2.high ∧ k1.low ≤ k2.low then
    some (mergedOf k1 k2 upward k1.extremum_ts)
  else if k2.high ≥ k1.high ∧ k2.low ≤ k1.low then
    some (mergedOf k1 k2 upward k2.ts)
  else
    none
where
  /-- The common tail of `inclusive_neighbor_k` once `extremum_ts` is fixed:
  `start_ts = k1.start_ts`, `end_ts = k2.ts`, `n = k1.n + 1`, and the
  direction-dependent envelope. -/
  mergedOf (k1 : CK) (k2 : K) (upward : Bool) (extremum_ts : Nat) : CK :=
    { start_ts := k1.start_ts
      end_ts := k2.ts
      extremum_ts := extremum_ts
      high := if upward then (if k1.high > k2.high then k1.high else k2.high)
              else (if k1.high < k2.high then k1.high else k2.high)
      low := if upward then (if k1.low > k2.low then k1.low else k2.low)
             else (if k1.low < k2.low then k1.low else k2.low)
      n := k1.n + 1 }

/-- The emission formula shared by `consume`'s step 4 and `run`'s
end-of-stream flush (the Rust source writes the same struct literal in
both places). -/
def mkParting (k1 k2 k3 : CK) (upward : Bool) : Parting :=
  { start_ts := k1.start_ts
    end_ts := k3.end_ts
    extremum_ts := k2.extremum_ts
    extremum_price := if upward then k2.low else k2.high
    n := k1.n + k2.n + k3.n
    top := !upward }

/-- `PartingShaper::consume`: the per-candle transition. -/
def consume (s : PartingShaper) (k : K) : PartingShaper :=
  match s.first_k with
  | none => { s with first_k := some (k_to_ck k) }
  | some k1 =>
    match s.second_k with
    | none =>
      match inclusive_neighbor_k k1 k s.upward with
      | none =>
        { s with upward := decide (k.high > k1.high), second_k := some (k_to_ck k) }
      | some ck => { s with first_k := some ck }
    | some k2 =>
      match s.third_k with
      | none =>
        match inclusive_neighbor_k k2 k s.upward with
        | some ck => { s with second_k := some ck }
        | none =>
          if (s.upward ∧ k.low < k2.low) ∨ (¬s.upward ∧ k.high > k2.high) then
            { s with third_k := some (k_to_ck k), upward := !s.upward }
          else
            { s with first_k := some k2, second_k := some (k_to_ck k) }
      | some k3 =>
        match inclusive_neighbor_k k3 k s.upward with
        | some ck => { s with third_k := some ck }
        | none =>
          let body := s.body ++ [mkParting k1 k2 k3 s.upward]
          if (s.upward ∧ k.low < k3.low) ∨ (¬s.upward ∧ k.high > k3.high) then
            { body := body, first_k := some k2, second_k := some k3,
              third_k := some (k_to_ck k), upward := !s.upward }
          else
            { body := body, first_k := some k3, second_k := some (k_to_ck k),
              third_k := none, upward := decide (k.high > k3.high) }

/-- The end-of-stream flush at the end of `PartingShaper::run`: if the
third slot is still filled, emit one more parting and shift the window
left by one.  (The Rust code unwraps `first_k` and `second_k` here; on
every state reachable from `new` they are filled whenever `third_k` is —
see `wf_run_state`.) -/
def flush (s : PartingShaper) : PartingShaper :=
  match s.first_k, s.second_k, s.third_k with
  | some k1, some k2, some k3 =>
    { body := s.body ++ [mkParting k1 k2 k3 s.upward],
      first_k := some k2, second_k := some k3, third_k := none,
      upward := s.upward }
  | _, _, _ => s

/-- `PartingShaper::run`: fold `consume` over the input, flush, return body. -/
def run (ks : List K) : List Parting :=
  (flush (List.foldl consume new ks)).body

end PartingShaper

/-- `ks_to_pts`: the public driver; the Rust `Result` never carries an
error on this path, so the embedding always returns `Except.ok`. -/
def ks_to_pts (ks : List K) : Except String (List Parting) :=
  Except.ok (PartingShaper.run ks)

namespace PartingShaper

/-- Well-formedness of the sliding window: slots fill oldest-first, so a
filled later slot forces the earlier ones to be filled. -/
def WF (s : PartingShaper) : Prop :=
  (s.second_k.isSome → s.first_k.isSome) ∧ (s.third_k.isSome → s.second_k.isSome)

/-- The candles of `l` rise strictly: each one's high and low lie strictly
above the previous candle's. -/
abbrev StrictRise (l : List K) : Prop :=
  List.Chain' (fun a b => a.high < b.high ∧ a.low < b.low) l

/-- The candles of `l` fall strictly: each one's high and low lie strictly
below the previous candle's. -/
abbrev StrictFall (l : List K) : Prop :=
  List.Chain' (fun a b => b.high < a.high ∧ b.low < a.low) l

/-- Count the number of adjacent changes of value in a list of booleans. -/
def boolChanges : List Bool → Nat
  | [] => 0
  | [_] => 0
  | a :: b :: rest => (if a = b then 0 else 1) + boolChanges (b :: rest)

/-- The number of times the direction flag `upward` changes value over a
full run of the shaper on `ks` (the per-candle transitions; the flush
never touches `upward`). -/
def upwardFlips (ks : List K) : Nat :=
  boolChanges ((List.scanl consume new ks).map upward)

/-- The sortedness/bounds invariant carried through a run: the emitted
body is sorted by `start_ts`, every emitted parting starts no later than
the first slot, the slots' `start_ts` are ordered oldest-to-newest, slots
only fill oldest-first, nothing is emitted before the window first fills,
and every filled slot's `start_ts` is at most the bound `t` (the
timestamp of the last consumed candle). -/
structure Inv (s : PartingShaper) (t : Nat) : Prop where
  body_sorted : List.Chain' (fun p q => p.start_ts ≤ q.start_ts) s.body
  body_le_first : ∀ p ∈ s.body, ∀ c, s.first_k = some c → p.start_ts ≤ c.start_ts
  first_le_second : ∀ c1 c2, s.first_k = some c1 → s.second_k = some c2 →
    c1.start_ts ≤ c2.start_ts
  second_le_third : ∀ c2 c3, s.second_k = some c2 → s.third_k = some c3 →
    c2.start_ts ≤ c3.start_ts
  body_of_first : s.first_k = none → s.body = []
  empty_slots : s.first_k = none → s.second_k = none ∧ s.third_k = none
  third_of_second : s.second_k = none → s.third_k = none
  first_le : ∀ c, s.first_k = some c → c.start_ts ≤ t
  second_le : ∀ c, s.second_k = some c → c.start_ts ≤ t
  third_le : ∀ c, s.third_k = some c → c.start_ts ≤ t

end PartingShaper

/-- The candles of the spec's concrete scenario (§8): minute bars
10:00–10:04 encoded as minutes of the day, prices as exact decimals. -/
def c2ks : List K :=
  [⟨600, mkRat 101 10, 10⟩, ⟨601, mkRat 203 20, mkRat 201 20⟩, ⟨602, mkRat 51 5, mkRat 101 10⟩,
   ⟨603, mkRat 203 20, mkRat 201 20⟩, ⟨604, mkRat 101 10, 10⟩]

/-- A rise-then-fall triple that ends exactly at the third candle of a
forming fractal (candles 10:01–10:03 of the concrete scenario). -/
def c4ks : List K :=
  [⟨601, mkRat 203 20, mkRat 201 20⟩, ⟨602, mkRat 51 5, mkRat 101 10⟩, ⟨603, mkRat 203 20, mkRat 201 20⟩]

/-- A four-candle base sequence: two rising candles, a candle inside the
second one's range, then a strong rise.  On its own it emits no parting. -/
def c5S : List K :=
  [⟨0, 10, 9⟩, ⟨1, 11, mkRat 19 2⟩, ⟨3, mkRat 109 10, 10⟩, ⟨4, 12, mkRat 23 2⟩]

/-- A candle strictly inside the range of `c5S`'s second candle
(high 10.8 < 11, low 10.5 > 9.5). -/
def c5B : K := ⟨2, mkRat 54 5, mkRat 21 2⟩

/-- `c5S` with `c5B` inserted at position 2, where the window candle it
is compared against (the second slot) fully contains its range. -/
def c5S' : List K :=
  [⟨0, 10, 9⟩, ⟨1, 11, mkRat 19 2⟩, ⟨2, mkRat 54 5, mkRat 21 2⟩, ⟨3, mkRat 109 10, 10⟩, ⟨4, 12, mkRat 23 2⟩]

/-- A strictly rising five-candle sequence (the `test_shaper_no_parting`
input). -/
def c6ks : List K :=
  [⟨600, mkRat 101 10, 10⟩, ⟨601, mkRat 203 20, mkRat 201 20⟩, ⟨602, mkRat 51 5, mkRat 101 10⟩,
   ⟨603, mkRat 41 4, mkRat 203 20⟩, ⟨604, mkRat 103 10, mkRat 51 5⟩]

/-- Two strictly falling candles: the direction flag changes from its
initial `true` to `false` while nothing is emitted. -/
def c8ks : List K := [⟨0, 10, 9⟩, ⟨1, 8, 7⟩]

namespace PartingShaper

lemma if_gt_eq_max (a b : ℚ) : (if a > b then a else b) = max a b := by
  rcases le_or_lt a b with h | h
  · rw [if_neg (not_lt.mpr h), max_eq_right h]
  · rw [if_pos h, max_eq_left h.le]

lemma if_lt_eq_min (a b : ℚ) : (if a < b then a else b) = min a b := by
  rcases le_or_lt b a with h | h
  · rw [if_neg (not_lt.mpr h), min_eq_right h]
  · rw [if_pos h, min_eq_left h.le]

/-- When the window candle `k1` contains the incoming candle `k2`,
`inclusive_neighbor_k` merges and keeps `k1`'s extremum timestamp. -/
lemma inclusive_contains (k1 : CK) (k2 : K) (up : Bool)
    (hh : k1.high ≥ k2.high) (hl : k1.low ≤ k2.low) :
    inclusive_neighbor_k k1 k2 up
      = some (inclusive_neighbor_k.mergedOf k1 k2 up k1.extremum_ts) := by
  unfold inclusive_neighbor_k
  rw [if_pos ⟨hh, hl⟩]

/-- Whatever branch produced it, a successful merge keeps the window
candle's `start_ts`, stamps `end_ts` with the incoming candle's
timestamp, and increments the merge count. -/
lemma inclusive_some_fields (k1 : CK) (k2 : K) (up : Bool) (ck : CK)
    (h : inclusive_neighbor_k k1 k2 up = some ck) :
    ck.start_ts = k1.start_ts ∧ ck.end_ts = k2.ts ∧ ck.n = k1.n + 1 := by
  unfold inclusive_neighbor_k at h
  split_ifs at h <;> (cases h; exact ⟨rfl, rfl, rfl⟩)

lemma inclusive_some_start (k1 : CK) (k2 : K) (up : Bool) (ck : CK)
    (h : inclusive_neighbor_k k1 k2 up = some ck) : ck.start_ts = k1.start_ts :=
  (inclusive_some_fields k1 k2 up ck h).1

/-- The direction-dependent envelope of a successful merge: pairwise
maxima of both bounds under an upward direction, pairwise minima under a
downward one. -/
lemma inclusive_some_envelope (k1 : CK) (k2 : K) (up : Bool) (ck : CK)
    (h : inclusive_neighbor_k k1 k2 up = some ck) :
    (up = true → ck.high = max k1.high k2.high ∧ ck.low = max k1.low k2.low) ∧
    (up = false → ck.high = min k1.high k2.high ∧ ck.low = min k1.low k2.low) := by
  unfold inclusive_neighbor_k at h
  split_ifs at h <;>
    (cases h
     constructor <;> intro hu <;> subst hu <;>
       exact ⟨by simp [inclusive_neighbor_k.mergedOf, if_gt_eq_max, if_lt_eq_min],
              by simp [inclusive_neighbor_k.mergedOf, if_gt_eq_max, if_lt_eq_min]⟩)

end PartingShaper

open PartingShaper

/-- C2: on the spec's concrete five-candle scenario, `ks_to_pts` returns
exactly one Parting with `start_ts = 10:01`, `end_ts = 10:03`,
`extremum_ts = 10:02`, `extremum_price = 10.20` and `top = true`. -/
theorem c2_concrete_scenario :
    ks_to_pts c2ks = Except.ok [⟨601, 603, 602, mkRat 51 5, 3, true⟩] :=
  congrArg Except.ok (by decide)

/-- C1: with all three slots filled and the incoming candle not merging
with the third slot, `consume` appends exactly one Parting built from
the three slots and the direction flag: `start_ts = slot1.start_ts`,
`end_ts = slot3.end_ts`, `extremum_ts = slot2.extremum_ts`,
`extremum_price = slot2.low` if upward else `slot2.high`,
count summed over the slots, and `top = !upward`. -/
theorem c1_emit_formula (s : PartingShaper) (k : K) (k1 k2 k3 : CK)
    (h1 : s.first_k = some k1) (h2 : s.second_k = some k2)
    (h3 : s.third_k = some k3)
    (hm : inclusive_neighbor_k k3 k s.upward = none) :
    (consume s k).body
      = s.body ++ [⟨k1.start_ts, k3.end_ts, k2.extremum_ts,
          if s.upward then k2.low else k2.high,
          k1.n + k2.n + k3.n, !s.upward⟩] := by
  simp only [consume, h1, h2, h3, hm]
  split <;> rfl

theorem c1_emit_formula_witness :
    inclusive_neighbor_k ⟨2, 2, 2, 12, 11, 1⟩ ⟨3, 13, mkRat 23 2⟩ true = none ∧
    (consume ⟨[], some ⟨0, 0, 0, 10, 9, 1⟩, some ⟨1, 1, 1, 11, 10, 1⟩,
        some ⟨2, 2, 2, 12, 11, 1⟩, true⟩ ⟨3, 13, mkRat 23 2⟩).body
      = [⟨0, 2, 1, 10, 3, false⟩] :=
  ⟨by decide, by
    have h := c1_emit_formula
      ⟨[], some ⟨0, 0, 0, 10, 9, 1⟩, some ⟨1, 1, 1, 11, 10, 1⟩,
        some ⟨2, 2, 2, 12, 11, 1⟩, true⟩
      ⟨3, 13, mkRat 23 2⟩ ⟨0, 0, 0, 10, 9, 1⟩ ⟨1, 1, 1, 11, 10, 1⟩
      ⟨2, 2, 2, 12, 11, 1⟩ rfl rfl rfl (by decide)
    simpa using h⟩

/-- C3: whenever a merged candle `A` and raw candle `B` stand in an
inclusive relationship, the merger succeeds and the merged candle has
the pairwise-max envelope under an upward direction, the pairwise-min
envelope under a downward one, `start_ts = A.start_ts`,
`end_ts = B.ts` and `n = A.n + 1`. -/
theorem c3_merge_fields (A : CK) (B : K) (up : Bool)
    (h : (A.high ≥ B.high ∧ A.low ≤ B.low) ∨ (B.high ≥ A.high ∧ B.low ≤ A.low)) :
    ∃ ck, inclusive_neighbor_k A B up = some ck ∧
      (up = true → ck.high = max A.high B.high ∧ ck.low = max A.low B.low) ∧
      (up = false → ck.high = min A.high B.high ∧ ck.low = min A.low B.low) ∧
      ck.start_ts = A.start_ts ∧ ck.end_ts = B.ts ∧ ck.n = A.n + 1 := by
  have hsome : ∃ ck, inclusive_neighbor_k A B up = some ck := by
    unfold inclusive_neighbor_k
    split_ifs with h1 h2
    · exact ⟨_, rfl⟩
    · exact ⟨_, rfl⟩
    · rcases h with h | h
      · exact absurd h h1
      · exact absurd h h2
  obtain ⟨ck, hck⟩ := hsome
  obtain ⟨henv1, henv2⟩ := inclusive_some_envelope A B up ck hck
  obtain ⟨hs, he, hn⟩ := inclusive_some_fields A B up ck hck
  exact ⟨ck, hck, henv1, henv2, hs, he, hn⟩

theorem c3_merge_fields_witness :
    (((10:ℚ) ≥ 9 ∧ (1:ℚ) ≤ 2) ∨ ((9:ℚ) ≥ 10 ∧ (2:ℚ) ≤ 1)) ∧
    (∃ ck, inclusive_neighbor_k ⟨0, 0, 0, 10, 1, 1⟩ ⟨5, 9, 2⟩ true = some ck ∧
      (true = true → ck.high = max (10:ℚ) 9 ∧ ck.low = max (1:ℚ) 2) ∧
      (true = false → ck.high = min (10:ℚ) 9 ∧ ck.low = min (1:ℚ) 2) ∧
      ck.start_ts = 0 ∧ ck.end_ts = 5 ∧ ck.n = 2) :=
  ⟨Or.inl (by decide),
   c3_merge_fields ⟨0, 0, 0, 10, 1, 1⟩ ⟨5, 9, 2⟩ true (Or.inl (by decide))⟩

/-- C9: when the merged candle `A` and the raw candle `B` have identical
ranges, the merger treats this as containment (the non-strict `A ⊇ B`
test fires first) and keeps `A`'s extremum timestamp. -/
theorem c9_equal_ranges_merge (A : CK) (B : K) (up : Bool)
    (hh : A.high = B.high) (hl : A.low = B.low) :
    ∃ ck, inclusive_neighbor_k A B up = some ck ∧
      ck.extremum_ts = A.extremum_ts := by
  refine ⟨_, inclusive_contains A B up (le_of_eq hh.symm) (le_of_eq hl), rfl⟩

theorem c9_equal_ranges_merge_witness :
    ((⟨7, 8, 7, 10, 9, 2⟩ : CK).high = (⟨9, 10, 9⟩ : K).high) ∧
    ((⟨7, 8, 7, 10, 9, 2⟩ : CK).low = (⟨9, 10, 9⟩ : K).low) ∧
    (∃ ck, inclusive_neighbor_k ⟨7, 8, 7, 10, 9, 2⟩ ⟨9, 10, 9⟩ false = some ck ∧
      ck.extremum_ts = (⟨7, 8, 7, 10, 9, 2⟩ : CK).extremum_ts) :=
  ⟨rfl, rfl,
   c9_equal_ranges_merge ⟨7, 8, 7, 10, 9, 2⟩ ⟨9, 10, 9⟩ false rfl rfl⟩

/-- C8 counterexample: on two strictly falling candles the direction
flag changes once (step 2 re-derives it from the breakout comparison)
while zero Partings are emitted, so the number of `upward` changes over
a full run does not equal the number of emitted Partings. -/
theorem c8_counterexample :
    upwardFlips c8ks ≠ (PartingShaper.run c8ks).length := by
  decide

/-- C5 counterexample: `c5S'` is `c5S` with the candle `c5B` inserted at
position 2; at that point `c5B` is compared against the second slot,
whose range strictly contains it; yet the extended run emits two
Partings while the base run emits none. -/
theorem c5_counterexample :
    c5S' = c5S.take 2 ++ [c5B] ++ c5S.drop 2 ∧
    (List.foldl consume PartingShaper.new (c5S'.take 2)).second_k
      = some ⟨1, 1, 1, 11, mkRat 19 2, 1⟩ ∧
    (List.foldl consume PartingShaper.new (c5S'.take 2)).third_k = none ∧
    (mkRat 19 2 : ℚ) ≤ c5B.low ∧ c5B.high ≤ (11 : ℚ) ∧
    (PartingShaper.run c5S).length = 0 ∧
    (PartingShaper.run c5S').length = 2 := by
  refine ⟨rfl, by decide, by decide, by decide, by decide, by decide, by decide⟩

/-- C10: on fewer than three candles the third slot never fills, so
`ks_to_pts` returns `Ok` with an empty Parting sequence. -/
theorem c10_short_input (ks : List K) (h : ks.length < 3) :
    ks_to_pts ks = Except.ok [] := by
  match ks with
  | [] => rfl
  | [a] => rfl
  | [a, b] =>
    unfold ks_to_pts PartingShaper.run
    rcases hm : inclusive_neighbor_k (k_to_ck a) b true with _ | ck <;>
      simp [List.foldl, consume, flush, PartingShaper.new, hm]
  | a :: b :: c :: rest => simp at h; omega

theorem c10_short_input_witness :
    ([(⟨0, 10, 9⟩ : K), ⟨1, 11, 10⟩] : List K).length < 3 ∧
    ks_to_pts [(⟨0, 10, 9⟩ : K), ⟨1, 11, 10⟩] = Except.ok [] :=
  ⟨by decide, c10_short_input [⟨0, 10, 9⟩, ⟨1, 11, 10⟩] (by decide)⟩

namespace PartingShaper

/-- One `consume` step preserves the oldest-first fill discipline of the
window. -/
lemma wf_consume (s : PartingShaper) (k : K) (h : WF s) : WF (consume s k) := by
  obtain ⟨b, f, sec, th, up⟩ := s
  obtain ⟨h1, h2⟩ := h
  simp only [WF] at *
  rcases f with _ | k1
  · rcases sec with _ | k2
    · rcases th with _ | k3
      · simp [consume]
      · simp at h2
    · simp at h1
  · rcases sec with _ | k2
    · rcases th with _ | k3
      · rcases hm : inclusive_neighbor_k k1 k up with _ | ck <;>
          simp [consume, hm]
      · simp at h2
    · rcases th with _ | k3
      · rcases hm : inclusive_neighbor_k k2 k up with _ | ck
        · simp only [consume, hm]
          split_ifs <;> simp
        · simp [consume, hm]
      · rcases hm : inclusive_neighbor_k k3 k up with _ | ck
        · simp only [consume, hm]
          split_ifs <;> simp
        · simp [consume, hm]

/-- Every state reached from `new` by a full fold of `consume` fills its
window oldest-first; in particular the flush's unwraps cannot fail. -/
lemma wf_run_state (ks : List K) : WF (List.foldl consume new ks) := by
  have hstep : ∀ (l : List K) (s : PartingShaper), WF s → WF (List.foldl consume s l) := by
    intro l
    induction l with
    | nil => exact fun s h => h
    | cons k l ih => exact fun s h => ih _ (wf_consume s k h)
  exact hstep ks new ⟨by simp [new], by simp [new]⟩

end PartingShaper

/-- C4: whenever the third slot is still filled after the last candle,
`run` flushes: it returns the fold's body extended by exactly one
Parting built by the step-4 emission formula (`mkParting`) from the
current three slots and direction flag, and the flushed state retains
old slot2 in slot1 and old slot3 in slot2, with slot3 emptied. -/
theorem c4_end_of_stream_flush (ks : List K) (k3 : CK)
    (h3 : (List.foldl consume PartingShaper.new ks).third_k = some k3) :
    ∃ k1 k2,
      (List.foldl consume PartingShaper.new ks).first_k = some k1 ∧
      (List.foldl consume PartingShaper.new ks).second_k = some k2 ∧
      PartingShaper.run ks
        = (List.foldl consume PartingShaper.new ks).body
          ++ [mkParting k1 k2 k3 (List.foldl consume PartingShaper.new ks).upward] ∧
      (flush (List.foldl consume PartingShaper.new ks)).first_k
        = (List.foldl consume PartingShaper.new ks).second_k ∧
      (flush (List.foldl consume PartingShaper.new ks)).second_k
        = (List.foldl consume PartingShaper.new ks).third_k ∧
      (flush (List.foldl consume PartingShaper.new ks)).third_k = none := by
  obtain ⟨hwf1, hwf2⟩ := wf_run_state ks
  have hs2 : (List.foldl consume PartingShaper.new ks).second_k.isSome :=
    hwf2 (by simp [h3])
  rcases h2 : (List.foldl consume PartingShaper.new ks).second_k with _ | k2
  · rw [h2] at hs2; simp at hs2
  have hs1 : (List.foldl consume PartingShaper.new ks).first_k.isSome :=
    hwf1 (by simp [h2])
  rcases h1 : (List.foldl consume PartingShaper.new ks).first_k with _ | k1
  · rw [h1] at hs1; simp at hs1
  refine ⟨k1, k2, rfl, rfl, ?_, ?_, ?_, ?_⟩
  · unfold PartingShaper.run flush
    rw [h1, h2, h3]
  · unfold flush
    rw [h1, h2, h3]
  · unfold flush
    rw [h1, h2, h3]
  · unfold flush
    rw [h1, h2, h3]

theorem c4_end_of_stream_flush_witness :
    (List.foldl consume PartingShaper.new c4ks).third_k
      = some ⟨603, 603, 603, mkRat 203 20, mkRat 201 20, 1⟩ ∧
    (∃ k1 k2,
      (List.foldl consume PartingShaper.new c4ks).first_k = some k1 ∧
      (List.foldl consume PartingShaper.new c4ks).second_k = some k2 ∧
      PartingShaper.run c4ks
        = (List.foldl consume PartingShaper.new c4ks).body
          ++ [mkParting k1 k2 ⟨603, 603, 603, mkRat 203 20, mkRat 201 20, 1⟩
                (List.foldl consume PartingShaper.new c4ks).upward] ∧
      (flush (List.foldl consume PartingShaper.new c4ks)).first_k
        = (List.foldl consume PartingShaper.new c4ks).second_k ∧
      (flush (List.foldl consume PartingShaper.new c4ks)).second_k
        = (List.foldl consume PartingShaper.new c4ks).third_k ∧
      (flush (List.foldl consume PartingShaper.new c4ks)).third_k = none) :=
  ⟨by decide,
   c4_end_of_stream_flush c4ks ⟨603, 603, 603, mkRat 203 20, mkRat 201 20, 1⟩ (by decide)⟩

namespace PartingShaper

/-- A candle strictly above the window candle in both bounds never
merges with it. -/
lemma rise_no_merge (q k : K) (hh : q.high < k.high) (hl : q.low < k.low) (u : Bool) :
    inclusive_neighbor_k (k_to_ck q) k u = none := by
  have h1 : ¬((k_to_ck q).high ≥ k.high ∧ (k_to_ck q).low ≤ k.low) :=
    fun h => absurd h.1 (not_le.mpr hh)
  have h2 : ¬(k.high ≥ (k_to_ck q).high ∧ k.low ≤ (k_to_ck q).low) :=
    fun h => absurd h.2 (not_le.mpr hl)
  rw [inclusive_neighbor_k, if_neg h1, if_neg h2]

/-- A candle strictly below the window candle in both bounds never
merges with it. -/
lemma fall_no_merge (q k : K) (hh : k.high < q.high) (hl : k.low < q.low) (u : Bool) :
    inclusive_neighbor_k (k_to_ck q) k u = none := by
  have h1 : ¬((k_to_ck q).high ≥ k.high ∧ (k_to_ck q).low ≤ k.low) :=
    fun h => absurd h.2 (not_le.mpr hl)
  have h2 : ¬(k.high ≥ (k_to_ck q).high ∧ k.low ≤ (k_to_ck q).low) :=
    fun h => absurd h.1 (not_le.mpr hh)
  rw [inclusive_neighbor_k, if_neg h1, if_neg h2]

/-- On a rising step, a two-slot upward window shifts left by one and
stays two-slot and upward, emitting nothing. -/
lemma consume_rise_step (b : List Parting) (p q k : K)
    (hh : q.high < k.high) (hl : q.low < k.low) :
    consume ⟨b, some (k_to_ck p), some (k_to_ck q), none, true⟩ k
      = ⟨b, some (k_to_ck q), some (k_to_ck k), none, true⟩ := by
  simp only [consume, rise_no_merge q k hh hl]
  split_ifs with hc
  · exfalso
    rcases hc with ⟨-, hlt⟩ | ⟨hup, -⟩
    · exact absurd hlt (not_lt.mpr hl.le)
    · exact hup (by simp)
  · rfl

/-- On a falling step, a two-slot downward window shifts left by one and
stays two-slot and downward, emitting nothing. -/
lemma consume_fall_step (b : List Parting) (p q k : K)
    (hh : k.high < q.high) (hl : k.low < q.low) :
    consume ⟨b, some (k_to_ck p), some (k_to_ck q), none, false⟩ k
      = ⟨b, some (k_to_ck q), some (k_to_ck k), none, false⟩ := by
  simp only [consume, fall_no_merge q k hh hl]
  have hcond : ¬((false = true ∧ k.low < (k_to_ck q).low)
      ∨ (¬false = true ∧ k.high > (k_to_ck q).high)) := by
    rintro (⟨h, -⟩ | ⟨-, hgt⟩)
    · exact Bool.false_ne_true h
    · exact absurd hgt (not_lt.mpr hh.le)
  rw [if_neg hcond]

lemma foldl_rise (ks : List K) : ∀ (q : K) (b : List Parting) (p : K),
    List.Chain' (fun a c => a.high < c.high ∧ a.low < c.low) (q :: ks) →
    ∃ p' q', List.foldl consume ⟨b, some (k_to_ck p), some (k_to_ck q), none, true⟩ ks
      = ⟨b, some (k_to_ck p'), some (k_to_ck q'), none, true⟩ := by
  induction ks with
  | nil => exact fun q b p _ => ⟨p, q, rfl⟩
  | cons k ks ih =>
    intro q b p hch
    rw [List.chain'_cons] at hch
    obtain ⟨⟨hh, hl⟩, hch2⟩ := hch
    rw [List.foldl_cons, consume_rise_step b p q k hh hl]
    exact ih k b q hch2

lemma foldl_fall (ks : List K) : ∀ (q : K) (b : List Parting) (p : K),
    List.Chain' (fun a c => c.high < a.high ∧ c.low < a.low) (q :: ks) →
    ∃ p' q', List.foldl consume ⟨b, some (k_to_ck p), some (k_to_ck q), none, false⟩ ks
      = ⟨b, some (k_to_ck p'), some (k_to_ck q'), none, false⟩ := by
  induction ks with
  | nil => exact fun q b p _ => ⟨p, q, rfl⟩
  | cons k ks ih =>
    intro q b p hch
    rw [List.chain'_cons] at hch
    obtain ⟨⟨hh, hl⟩, hch2⟩ := hch
    rw [List.foldl_cons, consume_fall_step b p q k hh hl]
    exact ih k b q hch2

end PartingShaper

/-- C6: a strictly rising candle sequence, and symmetrically a strictly
falling one, yields zero Partings from `ks_to_pts`: the third slot never
fills, so nothing is emitted and nothing is flushed. -/
theorem c6_monotone_no_parting (ks : List K) :
    (StrictRise ks → ks_to_pts ks = Except.ok []) ∧
    (StrictFall ks → ks_to_pts ks = Except.ok []) := by
  constructor
  · intro h
    match ks, h with
    | [], _ => rfl
    | [k0], _ => rfl
    | k0 :: k1 :: ks, h =>
      rw [StrictRise, List.chain'_cons] at h
      obtain ⟨⟨hh, hl⟩, hch⟩ := h
      have hc2 : consume (consume PartingShaper.new k0) k1
          = ⟨[], some (k_to_ck k0), some (k_to_ck k1), none, true⟩ := by
        show consume ⟨[], some (k_to_ck k0), none, none, true⟩ k1 = _
        simp only [consume, rise_no_merge k0 k1 hh hl]
        congr 1
        exact decide_eq_true hh
      obtain ⟨p', q', hfin⟩ := foldl_rise ks k1 [] k0 hch
      show Except.ok (PartingShaper.run (k0 :: k1 :: ks)) = Except.ok []
      unfold PartingShaper.run
      rw [List.foldl_cons, List.foldl_cons, hc2, hfin]
      rfl
  · intro h
    match ks, h with
    | [], _ => rfl
    | [k0], _ => rfl
    | k0 :: k1 :: ks, h =>
      rw [StrictFall, List.chain'_cons] at h
      obtain ⟨⟨hh, hl⟩, hch⟩ := h
      have hc2 : consume (consume PartingShaper.new k0) k1
          = ⟨[], some (k_to_ck k0), some (k_to_ck k1), none, false⟩ := by
        show consume ⟨[], some (k_to_ck k0), none, none, true⟩ k1 = _
        simp only [consume, fall_no_merge k0 k1 hh hl]
        congr 1
        exact decide_eq_false (not_lt.mpr hh.le)
      obtain ⟨p', q', hfin⟩ := foldl_fall ks k1 [] k0 hch
      show Except.ok (PartingShaper.run (k0 :: k1 :: ks)) = Except.ok []
      unfold PartingShaper.run
      rw [List.foldl_cons, List.foldl_cons, hc2, hfin]
      rfl

theorem c6_monotone_no_parting_witness :
    StrictRise c6ks ∧ ks_to_pts c6ks = Except.ok [] := by
  have h : StrictRise c6ks := by
    unfold c6ks
    refine List.chain'_cons.mpr ⟨⟨by decide, by decide⟩, ?_⟩
    refine List.chain'_cons.mpr ⟨⟨by decide, by decide⟩, ?_⟩
    refine List.chain'_cons.mpr ⟨⟨by decide, by decide⟩, ?_⟩
    refine List.chain'_cons.mpr ⟨⟨by decide, by decide⟩, ?_⟩
    exact List.chain'_singleton _
  exact ⟨h, (c6_monotone_no_parting c6ks).1 h⟩

/-- C8 (amended): the direction flag flips (to its negation) exactly at
fractal detections — when the third slot is first occupied by an
incoming candle (step 3, nothing emitted yet), and at an emission under
the shift-by-one policy (step 4, exactly one Parting appended).  In the
other reassignment sites (step 2 and step 4's shift-by-two) `upward` is
re-derived from the breakout comparison instead, so over a full run the
number of changes of `upward` need not equal the number of emitted
Partings. -/
theorem c8_flip_on_detection (s : PartingShaper) (k : K) :
    (∀ k1 k2, s.first_k = some k1 → s.second_k = some k2 → s.third_k = none →
      inclusive_neighbor_k k2 k s.upward = none →
      ((s.upward ∧ k.low < k2.low) ∨ (¬s.upward ∧ k.high > k2.high)) →
      (consume s k).upward = !s.upward ∧ (consume s k).body = s.body) ∧
    (∀ k1 k2 k3, s.first_k = some k1 → s.second_k = some k2 → s.third_k = some k3 →
      inclusive_neighbor_k k3 k s.upward = none →
      ((s.upward ∧ k.low < k3.low) ∨ (¬s.upward ∧ k.high > k3.high)) →
      (consume s k).upward = !s.upward ∧
      (consume s k).body = s.body ++ [mkParting k1 k2 k3 s.upward]) := by
  constructor
  · intro k1 k2 h1 h2 h3 hm hc
    simp only [consume, h1, h2, h3, hm]
    rw [if_pos hc]
    exact ⟨rfl, rfl⟩
  · intro k1 k2 k3 h1 h2 h3 hm hc
    simp only [consume, h1, h2, h3, hm]
    rw [if_pos hc]
    exact ⟨rfl, rfl⟩

theorem c8_flip_on_detection_witness :
    inclusive_neighbor_k ⟨1, 1, 1, 12, 11, 1⟩ ⟨2, mkRat 23 2, 10⟩ true = none ∧
    ((consume ⟨[], some ⟨0, 0, 0, 10, 9, 1⟩, some ⟨1, 1, 1, 12, 11, 1⟩,
        none, true⟩ ⟨2, mkRat 23 2, 10⟩).upward = !true ∧
     (consume ⟨[], some ⟨0, 0, 0, 10, 9, 1⟩, some ⟨1, 1, 1, 12, 11, 1⟩,
        none, true⟩ ⟨2, mkRat 23 2, 10⟩).body = []) :=
  ⟨by decide,
   (c8_flip_on_detection
      ⟨[], some ⟨0, 0, 0, 10, 9, 1⟩, some ⟨1, 1, 1, 12, 11, 1⟩, none, true⟩
      ⟨2, mkRat 23 2, 10⟩).1
     ⟨0, 0, 0, 10, 9, 1⟩ ⟨1, 1, 1, 12, 11, 1⟩ rfl rfl rfl (by decide)
     (Or.inl ⟨rfl, by decide⟩)⟩

/-- C5 (amended): absorbing a candle fully contained in the window
candle it is compared against emits nothing at that step and replaces
only that merged candle: `start_ts` and `extremum_ts` are kept, `end_ts`
becomes the candle's timestamp, the count is incremented (the envelope
bound facing the trend direction may tighten, which is what breaks the
global claim). -/
theorem c5_absorb_local (s : PartingShaper) (k : K) :
    (∀ k1, s.first_k = some k1 → s.second_k = none →
      k1.high ≥ k.high → k1.low ≤ k.low →
      ∃ c, consume s k = { s with first_k := some c } ∧
        c.start_ts = k1.start_ts ∧ c.end_ts = k.ts ∧
        c.extremum_ts = k1.extremum_ts ∧ c.n = k1.n + 1) ∧
    (∀ k1 k2, s.first_k = some k1 → s.second_k = some k2 → s.third_k = none →
      k2.high ≥ k.high → k2.low ≤ k.low →
      ∃ c, consume s k = { s with second_k := some c } ∧
        c.start_ts = k2.start_ts ∧ c.end_ts = k.ts ∧
        c.extremum_ts = k2.extremum_ts ∧ c.n = k2.n + 1) ∧
    (∀ k1 k2 k3, s.first_k = some k1 → s.second_k = some k2 → s.third_k = some k3 →
      k3.high ≥ k.high → k3.low ≤ k.low →
      ∃ c, consume s k = { s with third_k := some c } ∧
        c.start_ts = k3.start_ts ∧ c.end_ts = k.ts ∧
        c.extremum_ts = k3.extremum_ts ∧ c.n = k3.n + 1) := by
  refine ⟨?_, ?_, ?_⟩
  · intro k1 h1 h2 hh hl
    refine ⟨inclusive_neighbor_k.mergedOf k1 k s.upward k1.extremum_ts,
      ?_, rfl, rfl, rfl, rfl⟩
    simp only [consume, h1, h2, inclusive_contains k1 k s.upward hh hl]
  · intro k1 k2 h1 h2 h3 hh hl
    refine ⟨inclusive_neighbor_k.mergedOf k2 k s.upward k2.extremum_ts,
      ?_, rfl, rfl, rfl, rfl⟩
    simp only [consume, h1, h2, h3, inclusive_contains k2 k s.upward hh hl]
  · intro k1 k2 k3 h1 h2 h3 hh hl
    refine ⟨inclusive_neighbor_k.mergedOf k3 k s.upward k3.extremum_ts,
      ?_, rfl, rfl, rfl, rfl⟩
    simp only [consume, h1, h2, h3, inclusive_contains k3 k s.upward hh hl]

theorem c5_absorb_local_witness :
    ((12:ℚ) ≥ 11 ∧ (9:ℚ) ≤ 10) ∧
    (∃ c, consume ⟨[], some ⟨0, 0, 0, 10, 8, 1⟩, some ⟨1, 1, 1, 12, 9, 1⟩,
        none, true⟩ ⟨2, 11, 10⟩
      = { (⟨[], some ⟨0, 0, 0, 10, 8, 1⟩, some ⟨1, 1, 1, 12, 9, 1⟩,
           none, true⟩ : PartingShaper) with second_k := some c } ∧
      c.start_ts = 1 ∧ c.end_ts = 2 ∧ c.extremum_ts = 1 ∧ c.n = 2) :=
  ⟨⟨by decide, by decide⟩,
   (c5_absorb_local
      ⟨[], some ⟨0, 0, 0, 10, 8, 1⟩, some ⟨1, 1, 1, 12, 9, 1⟩, none, true⟩
      ⟨2, 11, 10⟩).2.1
     ⟨0, 0, 0, 10, 8, 1⟩ ⟨1, 1, 1, 12, 9, 1⟩ rfl rfl rfl (by decide) (by decide)⟩

lemma chain'_append_singleton {α : Type} {R : α → α → Prop} {l : List α} {a : α}
    (h : List.Chain' R l) (ha : ∀ x ∈ l, R x a) : List.Chain' R (l ++ [a]) := by
  refine h.append (List.chain'_singleton a) ?_
  intro x hx y hy
  rcases List.mem_getLast?_eq_getLast hx with ⟨hne, rfl⟩
  simp only [List.head?_cons, Option.mem_def, Option.some.injEq] at hy
  subst hy
  exact ha _ (List.getLast_mem hne)

/-- The initial state satisfies the invariant with bound 0. -/
lemma inv_new : Inv PartingShaper.new 0 :=
  ⟨List.chain'_nil,
   fun p hp => absurd hp (List.not_mem_nil p),
   fun _ _ hc _ => Option.noConfusion hc,
   fun _ _ hc _ => Option.noConfusion hc,
   fun _ => rfl,
   fun _ => ⟨rfl, rfl⟩,
   fun _ => rfl,
   fun _ hc => Option.noConfusion hc,
   fun _ hc => Option.noConfusion hc,
   fun _ hc => Option.noConfusion hc⟩

/-- One `consume` step preserves the invariant, moving the bound to the
consumed candle's timestamp. -/
lemma inv_consume (s : PartingShaper) (k : K) (t : Nat)
    (h : Inv s t) (ht : t ≤ k.ts) : Inv (consume s k) k.ts := by
  obtain ⟨b, f, sec, th, up⟩ := s
  obtain ⟨hb, hbf, h12, h23, hb0, hes, hts, hf1, hs1, ht1⟩ := h
  rcases f with _ | k1
  · obtain ⟨hsec, hth⟩ := hes rfl
    subst hsec
    subst hth
    have hbe : b = [] := hb0 rfl
    subst hbe
    exact ⟨List.chain'_nil,
      fun p hp => absurd hp (List.not_mem_nil p),
      fun c1 c2 _ hx => Option.noConfusion hx,
      fun c2 c3 hx _ => Option.noConfusion hx,
      fun _ => rfl,
      fun hx => Option.noConfusion hx,
      fun _ => rfl,
      fun c hc => by cases hc; exact le_refl _,
      fun c hc => Option.noConfusion hc,
      fun c hc => Option.noConfusion hc⟩
  · rcases sec with _ | k2
    · have hth : th = none := hts rfl
      subst hth
      rcases hm : inclusive_neighbor_k k1 k up with _ | ck
      · simp only [consume, hm]
        exact ⟨hb,
          fun p hp c hc => by cases hc; exact hbf p hp k1 rfl,
          fun c1 c2 hc1 hc2 => by cases hc1; cases hc2; exact le_trans (hf1 k1 rfl) ht,
          fun c2 c3 _ hc3 => Option.noConfusion hc3,
          fun hx => Option.noConfusion hx,
          fun hx => Option.noConfusion hx,
          fun hx => Option.noConfusion hx,
          fun c hc => by cases hc; exact le_trans (hf1 k1 rfl) ht,
          fun c hc => by cases hc; exact le_refl _,
          fun c hc => Option.noConfusion hc⟩
      · have hcs : ck.start_ts = k1.start_ts := inclusive_some_start k1 k up ck hm
        simp only [consume, hm]
        exact ⟨hb,
          fun p hp c hc => by cases hc; rw [hcs]; exact hbf p hp k1 rfl,
          fun c1 c2 _ hc2 => Option.noConfusion hc2,
          fun c2 c3 hc2 _ => Option.noConfusion hc2,
          fun hx => Option.noConfusion hx,
          fun hx => Option.noConfusion hx,
          fun _ => rfl,
          fun c hc => by cases hc; rw [hcs]; exact le_trans (hf1 k1 rfl) ht,
          fun c hc => Option.noConfusion hc,
          fun c hc => Option.noConfusion hc⟩
    · rcases th with _ | k3
      · rcases hm : inclusive_neighbor_k k2 k up with _ | ck
        · simp only [consume, hm]
          split_ifs with hc
          · exact ⟨hb,
              fun p hp c hc' => by cases hc'; exact hbf p hp k1 rfl,
              fun c1 c2 hc1 hc2 => by cases hc1; cases hc2; exact h12 k1 k2 rfl rfl,
              fun c2 c3 hc2 hc3 => by
                cases hc2; cases hc3; exact le_trans (hs1 k2 rfl) ht,
              fun hx => Option.noConfusion hx,
              fun hx => Option.noConfusion hx,
              fun hx => Option.noConfusion hx,
              fun c hc' => by cases hc'; exact le_trans (hf1 k1 rfl) ht,
              fun c hc' => by cases hc'; exact le_trans (hs1 k2 rfl) ht,
              fun c hc' => by cases hc'; exact le_refl _⟩
          · exact ⟨hb,
              fun p hp c hc' => by
                cases hc'; exact le_trans (hbf p hp k1 rfl) (h12 k1 k2 rfl rfl),
              fun c1 c2 hc1 hc2 => by
                cases hc1; cases hc2; exact le_trans (hs1 k2 rfl) ht,
              fun c2 c3 _ hc3 => Option.noConfusion hc3,
              fun hx => Option.noConfusion hx,
              fun hx => Option.noConfusion hx,
              fun hx => Option.noConfusion hx,
              fun c hc' => by cases hc'; exact le_trans (hs1 k2 rfl) ht,
              fun c hc' => by cases hc'; exact le_refl _,
              fun c hc' => Option.noConfusion hc'⟩
        · have hcs : ck.start_ts = k2.start_ts := inclusive_some_start k2 k up ck hm
          simp only [consume, hm]
          exact ⟨hb,
            fun p hp c hc' => by cases hc'; exact hbf p hp k1 rfl,
            fun c1 c2 hc1 hc2 => by
              cases hc1; cases hc2; rw [hcs]; exact h12 k1 k2 rfl rfl,
            fun c2 c3 _ hc3 => Option.noConfusion hc3,
            fun hx => Option.noConfusion hx,
            fun hx => Option.noConfusion hx,
            fun hx => Option.noConfusion hx,
            fun c hc' => by cases hc'; exact le_trans (hf1 k1 rfl) ht,
            fun c hc' => by cases hc'; rw [hcs]; exact le_trans (hs1 k2 rfl) ht,
            fun c hc' => Option.noConfusion hc'⟩
      · rcases hm : inclusive_neighbor_k k3 k up with _ | ck
        · simp only [consume, hm]
          split_ifs with hc
          · refine ⟨?_, ?_, ?_, ?_, ?_, ?_, ?_, ?_, ?_, ?_⟩
            · exact chain'_append_singleton hb (fun x hx => hbf x hx k1 rfl)
            · intro p hp c hc'
              cases hc'
              rcases List.mem_append.mp hp with hp1 | hp2
              · exact le_trans (hbf p hp1 k1 rfl) (h12 k1 k2 rfl rfl)
              · rw [List.mem_singleton] at hp2
                subst hp2
                exact h12 k1 k2 rfl rfl
            · intro c1 c2 hc1 hc2
              cases hc1; cases hc2; exact h23 k2 k3 rfl rfl
            · intro c2 c3 hc2 hc3
              cases hc2; cases hc3; exact le_trans (ht1 k3 rfl) ht
            · intro hx; exact Option.noConfusion hx
            · intro hx; exact Option.noConfusion hx
            · intro hx; exact Option.noConfusion hx
            · intro c hc'; cases hc'; exact le_trans (hs1 k2 rfl) ht
            · intro c hc'; cases hc'; exact le_trans (ht1 k3 rfl) ht
            · intro c hc'; cases hc'; exact le_refl _
          · refine ⟨?_, ?_, ?_, ?_, ?_, ?_, ?_, ?_, ?_, ?_⟩
            · exact chain'_append_singleton hb (fun x hx => hbf x hx k1 rfl)
            · intro p hp c hc'
              cases hc'
              rcases List.mem_append.mp hp with hp1 | hp2
              · exact le_trans (le_trans (hbf p hp1 k1 rfl) (h12 k1 k2 rfl rfl))
                  (h23 k2 k3 rfl rfl)
              · rw [List.mem_singleton] at hp2
                subst hp2
                exact le_trans (h12 k1 k2 rfl rfl) (h23 k2 k3 rfl rfl)
            · intro c1 c2 hc1 hc2
              cases hc1; cases hc2; exact le_trans (ht1 k3 rfl) ht
            · intro c2 c3 _ hc3; exact Option.noConfusion hc3
            · intro hx; exact Option.noConfusion hx
            · intro hx; exact Option.noConfusion hx
            · intro hx; exact Option.noConfusion hx
            · intro c hc'; cases hc'; exact le_trans (ht1 k3 rfl) ht
            · intro c hc'; cases hc'; exact le_refl _
            · intro c hc'; exact Option.noConfusion hc'
        · have hcs : ck.start_ts = k3.start_ts := inclusive_some_start k3 k up ck hm
          simp only [consume, hm]
          exact ⟨hb,
            fun p hp c hc' => by cases hc'; exact hbf p hp k1 rfl,
            fun c1 c2 hc1 hc2 => by cases hc1; cases hc2; exact h12 k1 k2 rfl rfl,
            fun c2 c3 hc2 hc3 => by
              cases hc2; cases hc3; rw [hcs]; exact h23 k2 k3 rfl rfl,
            fun hx => Option.noConfusion hx,
            fun hx => Option.noConfusion hx,
            fun hx => Option.noConfusion hx,
            fun c hc' => by cases hc'; exact le_trans (hf1 k1 rfl) ht,
            fun c hc' => by cases hc'; exact le_trans (hs1 k2 rfl) ht,
            fun c hc' => by cases hc'; rw [hcs]; exact le_trans (ht1 k3 rfl) ht⟩

/-- The invariant propagates along a fold over a strictly
`ts`-increasing candle list. -/
lemma inv_foldl (ks : List K) : ∀ (s : PartingShaper) (t : Nat),
    Inv s t → (∀ x ∈ ks, t ≤ x.ts) → List.Pairwise (fun a b => a.ts < b.ts) ks →
    ∃ u, Inv (List.foldl consume s ks) u := by
  induction ks with
  | nil => exact fun s t h _ _ => ⟨t, h⟩
  | cons k ks ih =>
    intro s t h hle hpw
    rw [List.foldl_cons]
    refine ih (consume s k) k.ts
      (inv_consume s k t h (hle k (List.mem_cons_self k ks))) ?_ hpw.of_cons
    intro x hx
    exact le_of_lt (List.rel_of_pairwise_cons hpw hx)

/-- The flush preserves sortedness of the body. -/
lemma body_sorted_flush (s : PartingShaper) (t : Nat) (h : Inv s t) :
    List.Chain' (fun p q => p.start_ts ≤ q.start_ts) (flush s).body := by
  obtain ⟨b, f, sec, th, up⟩ := s
  obtain ⟨hb, hbf, _, _, _, _, _, _, _, _⟩ := h
  rcases f with _ | k1 <;> rcases sec with _ | k2 <;> rcases th with _ | k3
  all_goals first
  | exact hb
  | exact chain'_append_singleton hb (fun x hx => hbf x hx k1 rfl)

/-- C7: on well-formed input (strictly increasing, unique timestamps),
the Parting sequence returned by `ks_to_pts` is ordered by `start_ts`:
each emitted Parting starts no earlier than the one before it. -/
theorem c7_sorted_by_start (ks : List K)
    (h : List.Pairwise (fun a b => a.ts < b.ts) ks) :
    List.Chain' (fun p q => p.start_ts ≤ q.start_ts) (PartingShaper.run ks) := by
  obtain ⟨u, hinv⟩ := inv_foldl ks PartingShaper.new 0 inv_new
    (fun x _ => Nat.zero_le _) h
  exact body_sorted_flush _ u hinv

theorem c7_sorted_by_start_witness :
    List.Pairwise (fun a b : K => a.ts < b.ts) c2ks ∧
    List.Chain' (fun p q : Parting => p.start_ts ≤ q.start_ts)
      (PartingShaper.run c2ks) :=
  ⟨by decide, c7_sorted_by_start c2ks (by decide)⟩
